import Mathlib

/-!
A verification development for the rent-ledger allocation engine.

This file gives a shallow embedding of the core allocation and
reconciliation logic of `rent_ledger.py`:

* the rule matcher (`match_rule`),
* the split allocator (`apply_rule_to_bank`),
* the batch rule application (`cmd_apply_rules`),
* the payment-to-charge allocator (`apply_payments_fifo`),
* the aging bucketizer (`bucket_for`),

together with theorems about them.  Monetary amounts are signed integers in
cents (`ℤ`), dates are proleptic-Gregorian ordinals (`ℤ`, mirroring
`datetime.date.toordinal`), and the floating-point percentages of rule
parts are modelled as rationals (`ℚ`).  Regular-expression matching is kept
abstract as a parameter `regexFind : String → String → Bool` (covering both
"no match" and "malformed pattern" outcomes of `re.search`); no theorem
below depends on its behaviour.
-/

namespace RentLedger

/-! ## Basic helpers -/

/-- Substring test on character lists, modelling Python's `needle in hay`
for strings.  The empty needle is contained in everything. -/
def hasSubstring (needle : List Char) : List Char → Bool
  | [] => needle.isEmpty
  | c :: t => needle.isPrefixOf (c :: t) || hasSubstring needle t

/-- Python's `str.strip("%")`: remove all leading and trailing
percent-sign characters. -/
def stripPct (s : String) : String :=
  ⟨((s.data.dropWhile (fun c => decide (c = '%'))).reverse.dropWhile
      (fun c => decide (c = '%'))).reverse⟩

/-- `sign_of` from the source: `"in"` for positive cents, `"out"` for
negative, `"any"` for zero. -/
def signOf (cents : ℤ) : String :=
  if 0 < cents then "in" else if cents < 0 then "out" else "any"

/-- Whether a year is a Gregorian leap year (as in Python's `calendar`). -/
def isLeap (y : ℕ) : Bool :=
  decide ((y % 4 = 0 ∧ ¬ y % 100 = 0) ∨ y % 400 = 0)

/-- Days in the months strictly before month `m` of year `y`. -/
def daysBeforeMonth (y m : ℕ) : ℕ :=
  (([31, 28, 31, 30, 31, 30, 31, 31, 30, 31, 30, 31].take (m - 1)).sum) +
    (if 2 < m ∧ isLeap y then 1 else 0)

/-- Proleptic-Gregorian ordinal of a calendar date, as computed by
Python's `datetime.date.toordinal` (day 1 is 0001-01-01).  Python `date`
objects compare and subtract exactly like their ordinals, so dates are
represented by this number throughout. -/
def toOrdinal (y m d : ℕ) : ℤ :=
  ((365 * (y - 1) + (y - 1) / 4 - (y - 1) / 100 + (y - 1) / 400 +
      daysBeforeMonth y m + d : ℕ) : ℤ)

/-! ## Data model: store rows

These mirror the sqlite rows consumed by the engine.  `bank` rows are
`(id, op_date, amount_cents, description)`; `rules` rows are
`(id, name, match_desc_like, min_amount_cents, max_amount_cents, sign,
priority, active, match_desc_regex)`; `rule_parts` rows are
`(id, rule_id, account, tenant_id, kind, value_cents, value_percent,
note_template)`; `splits` rows are
`(bank_id, account, tenant_id, amount_cents, note)`. -/

structure BankRow where
  id : ℤ
  opDate : ℤ
  amountCents : ℤ
  description : Option String
deriving DecidableEq

structure RuleRow where
  id : ℤ
  name : String
  matchDescLike : Option String
  minAmountCents : Option ℤ
  maxAmountCents : Option ℤ
  sign : String
  priority : ℤ
  active : ℤ
  matchDescRegex : Option String
deriving DecidableEq

structure RulePart where
  id : ℤ
  ruleId : ℤ
  account : String
  tenantId : Option String
  kind : String
  valueCents : Option ℤ
  valuePercent : Option ℚ
  noteTemplate : Option String
deriving DecidableEq

structure SplitRow where
  bankId : ℤ
  account : String
  tenantId : Option String
  amountCents : ℤ
  note : String
deriving DecidableEq

/-- The relational store as seen by the engine. -/
structure Store where
  bank : List BankRow
  rules : List RuleRow
  ruleParts : List RulePart
  splits : List SplitRow
deriving DecidableEq

/-! ## Rule matcher (`match_rule`) -/

/-- The literal-pattern condition fails: a nonempty (after whitespace
trimming) LIKE pattern whose `%`-stripped form does not occur in the
description. -/
def likeFails (likePat : Option String) (desc : String) : Bool :=
  match likePat with
  | none => false
  | some like =>
    if like = "" then false
    else
      let likeStr := like.trim
      if likeStr = "" then false
      else !hasSubstring (stripPct likeStr).data desc.data

/-- The regex condition fails: a nonempty pattern for which `re.search`
finds nothing (or raises `re.error`); both outcomes are folded into
`regexFind` returning `false`. -/
def regexFails (regexFind : String → String → Bool)
    (regexPat : Option String) (desc : String) : Bool :=
  match regexPat with
  | none => false
  | some rx => if rx = "" then false else !regexFind rx desc

/-- The minimum-amount condition fails. -/
def belowMin (minCents : Option ℤ) (amt : ℤ) : Bool :=
  match minCents with
  | none => false
  | some m => decide (amt < m)

/-- The maximum-amount condition fails. -/
def aboveMax (maxCents : Option ℤ) (amt : ℤ) : Bool :=
  match maxCents with
  | none => false
  | some m => decide (m < amt)

/-- The sign filter fails. -/
def signFails (sign : String) (amt : ℤ) : Bool :=
  decide (¬ sign = "any") && decide (¬ signOf amt = sign)

/-- `match_rule(rule, bank_row)`: inactive rules never match; each set
condition must hold; all conditions are conjoined. -/
def matchRule (regexFind : String → String → Bool) (r : RuleRow)
    (b : BankRow) : Bool :=
  if r.active = 0 then false
  else
    let desc := b.description.getD ""
    !likeFails r.matchDescLike desc &&
      !regexFails regexFind r.matchDescRegex desc &&
      !belowMin r.minAmountCents b.amountCents &&
      !aboveMax r.maxAmountCents b.amountCents &&
      !signFails r.sign b.amountCents

/-! ## Split allocator (`apply_rule_to_bank`) -/

/-- The allocation failure cases of `apply_rule_to_bank`.  The Python
function reports them as `(False, message)` pairs; here each message
becomes a constructor. -/
inductive AllocErr where
  /-- "Bank-ID nicht gefunden." -/
  | bankNotFound
  /-- "Regel nicht gefunden." -/
  | ruleNotFound
  /-- "Regel passt nicht auf diese Bankzeile." -/
  | noMatch
  /-- "Regel hat keine Parts." -/
  | noParts
  /-- "fixed-Part ohne value_cents." -/
  | fixedNoValue
  /-- "percent-Part ohne value_percent." -/
  | percentNoValue
  /-- "Percent-Summe ...% > 100%." -/
  | percentOverflow
  /-- "Mehr als ein remainder-Part definiert." -/
  | multipleRemainder
  /-- "Summe Splits ... ≠ Bankbetrag ...." -/
  | balanceMismatch
deriving DecidableEq

/-- A split waiting to be inserted: `(account, tenant_id, amount, note)`
exactly as accumulated in `splits_to_insert`. -/
structure SplitIns where
  account : String
  tenantId : Option String
  amount : ℤ
  note : Option String
deriving DecidableEq

/-- A collected percent part `(account, tenant_id, pct, note_template)`. -/
structure PercentPart where
  account : String
  tenantId : Option String
  pct : ℚ
  note : Option String
deriving DecidableEq

/-- The amount a fixed part contributes: its stored value with the sign
flipped whenever it disagrees with the transaction's sign
(`if (bank_amt > 0 and amt < 0) or (bank_amt < 0 and amt > 0): amt = -amt`). -/
def fixedAmt (bankAmt v : ℤ) : ℤ :=
  if (0 < bankAmt ∧ v < 0) ∨ (bankAmt < 0 ∧ 0 < v) then -v else v

/-- First pass of the allocator: walk the parts in order, process the
`fixed` ones, subtracting each coerced amount from the running
`remaining` accumulator and queueing a split.  A fixed part without
`value_cents` aborts. -/
def fixedPass (bankAmt : ℤ) : List RulePart → ℤ × List SplitIns →
    Except AllocErr (ℤ × List SplitIns)
  | [], acc => .ok acc
  | p :: ps, acc =>
    if p.kind = "fixed" then
      match p.valueCents with
      | none => .error .fixedNoValue
      | some v =>
        fixedPass bankAmt ps
          (acc.1 - fixedAmt bankAmt v,
           acc.2 ++ [⟨p.account, p.tenantId, fixedAmt bankAmt v, p.noteTemplate⟩])
    else fixedPass bankAmt ps acc

/-- Second pass: sum the percent values and collect the percent parts in
order.  A percent part without `value_percent` aborts. -/
def percentPass : List RulePart → ℚ × List PercentPart →
    Except AllocErr (ℚ × List PercentPart)
  | [], acc => .ok acc
  | p :: ps, acc =>
    if p.kind = "percent" then
      match p.valuePercent with
      | none => .error .percentNoValue
      | some v =>
        percentPass ps (acc.1 + v, acc.2 ++ [⟨p.account, p.tenantId, v, p.noteTemplate⟩])
    else percentPass ps acc

/-- Python's `round()` (round half to even) on a rational; the source
computes `int(round(bank_amt * pct / 100.0))` with floats, modelled here
on `ℚ`. -/
def pyRound (q : ℚ) : ℤ :=
  let n := Rat.floor q
  let r := q - (n : ℚ)
  if r < 1 / 2 then n
  else if 1 / 2 < r then n + 1
  else if n % 2 = 0 then n else n + 1

/-- Third pass: each collected percent part contributes
`round(bank_amt * pct / 100)` cents, subtracted from `remaining`. -/
def percentLoop (bankAmt : ℤ) (pparts : List PercentPart)
    (acc : ℤ × List SplitIns) : ℤ × List SplitIns :=
  pparts.foldl
    (fun acc pp =>
      (acc.1 - pyRound ((bankAmt : ℚ) * pp.pct / 100),
       acc.2 ++ [⟨pp.account, pp.tenantId, pyRound ((bankAmt : ℚ) * pp.pct / 100), pp.note⟩]))
    acc

/-- Sum of the amounts of a list of computed splits. -/
def splitsTotal (ns : List SplitIns) : ℤ :=
  (ns.map SplitIns.amount).sum

/-- The split computation of `apply_rule_to_bank` up to (but not
including) the final balance check: reject a part-less rule, run the
fixed pass, the percent sum (rejecting a sum above `100.000001`), the
percent loop, and at most one remainder part absorbing `remaining`. -/
def computeSplitsRaw (bankAmt : ℤ) (parts : List RulePart) :
    Except AllocErr (List SplitIns) :=
  if parts = [] then .error .noParts
  else
    match fixedPass bankAmt parts (bankAmt, []) with
    | .error e => .error e
    | .ok acc1 =>
      match percentPass parts (0, []) with
      | .error e => .error e
      | .ok psum =>
        if (100.000001 : ℚ) < psum.1 then .error .percentOverflow
        else
          let acc2 := percentLoop bankAmt psum.2 acc1
          let remParts := parts.filter (fun p => decide (p.kind = "remainder"))
          if 1 < remParts.length then .error .multipleRemainder
          else
            match remParts with
            | [q] => .ok (acc2.2 ++ [⟨q.account, q.tenantId, acc2.1, q.noteTemplate⟩])
            | _ => .ok acc2.2

/-- The full split computation: `computeSplitsRaw` followed by the
terminal integrity check `total != bank_amt`. -/
def computeSplits (bankAmt : ℤ) (parts : List RulePart) :
    Except AllocErr (List SplitIns) :=
  match computeSplitsRaw bankAmt parts with
  | .error e => .error e
  | .ok ns => if ¬ splitsTotal ns = bankAmt then .error .balanceMismatch else .ok ns

/-- The parts of a rule, ordered by part id (`ORDER BY id`). -/
def partsOf (st : Store) (ruleId : ℤ) : List RulePart :=
  (st.ruleParts.filter (fun p => decide (p.ruleId = ruleId))).insertionSort
    (fun a b => a.id ≤ b.id)

/-- Turn a computed split into an inserted `splits` row; an absent or
empty note template falls back to `"Auto: Regel <name>"` (Python's
`note_t or f"Auto: Regel {r[1]}"`). -/
def toSplitRow (bankId : ℤ) (ruleName : String) (s : SplitIns) : SplitRow :=
  ⟨bankId, s.account, s.tenantId, s.amount,
    match s.note with
    | some n => if n = "" then "Auto: Regel " ++ ruleName else n
    | none => "Auto: Regel " ++ ruleName⟩

/-- `apply_rule_to_bank(cx, rule_id, bank_id)`: look up the bank row and
the rule, check the match, compute the splits, and only on success insert
them (appending to the `splits` table) and report the count. -/
def applyRuleToBank (regexFind : String → String → Bool) (st : Store)
    (ruleId bankId : ℤ) : Store × Except AllocErr ℕ :=
  match st.bank.find? (fun b => decide (b.id = bankId)) with
  | none => (st, .error .bankNotFound)
  | some b =>
    match st.rules.find? (fun r => decide (r.id = ruleId)) with
    | none => (st, .error .ruleNotFound)
    | some r =>
      if matchRule regexFind r b then
        match computeSplits b.amountCents (partsOf st ruleId) with
        | .error e => (st, .error e)
        | .ok ns =>
          ({ st with splits := st.splits ++ ns.map (toSplitRow bankId r.name) },
           .ok ns.length)
      else (st, .error .noMatch)

/-! ## Batch rule application (`cmd_apply_rules`) -/

/-- The splits belonging to one bank transaction. -/
def splitsFor (st : Store) (bankId : ℤ) : List SplitRow :=
  st.splits.filter (fun s => decide (s.bankId = bankId))

/-- `split_sum` of a bank row in the `v_bank_with_sum` view: the sum of
its splits' amounts (0 when there are none). -/
def splitSum (st : Store) (bankId : ℤ) : ℤ :=
  ((splitsFor st bankId).map SplitRow.amountCents).sum

/-- The active rules in the order the batch pass tries them
(`WHERE active=1 ORDER BY priority, id`). -/
def rulesSorted (st : Store) : List RuleRow :=
  (st.rules.filter (fun r => decide (r.active = 1))).insertionSort
    (fun a b => a.priority < b.priority ∨ (a.priority = b.priority ∧ a.id ≤ b.id))

/-- Try the rules in order on one bank row: the first rule that matches
and whose allocation succeeds is applied and stops the scan; a failed
allocation moves on to the next rule. -/
def tryRules (regexFind : String → String → Bool) (rules : List RuleRow)
    (st : Store) (b : BankRow) : Store × Bool :=
  match rules with
  | [] => (st, false)
  | r :: rest =>
    if matchRule regexFind r b then
      match applyRuleToBank regexFind st r.id b.id with
      | (st2, .ok _) => (st2, true)
      | (st2, .error _) => tryRules regexFind rest st2 b
    else tryRules regexFind rest st b

/-- One iteration of the batch loop: a bank row whose splits already sum
to its amount is skipped (`if v and v[0] == b[2]: continue`); otherwise
the rules are tried and a success bumps the counter. -/
def applyStep (regexFind : String → String → Bool) (rules : List RuleRow)
    (acc : Store × ℕ) (b : BankRow) : Store × ℕ :=
  if splitSum acc.1 b.id = b.amountCents then acc
  else
    match tryRules regexFind rules acc.1 b with
    | (st2, true) => (st2, acc.2 + 1)
    | (st2, false) => (st2, acc.2)

/-- `cmd_apply_rules` (the default full pass): walk all bank rows in id
order, applying `applyStep` with the active rules; returns the updated
store and the number of rows auto-split. -/
def cmdApplyRules (regexFind : String → String → Bool) (st : Store) :
    Store × ℕ :=
  (st.bank.insertionSort (fun a b => a.id ≤ b.id)).foldl
    (applyStep regexFind (rulesSorted st)) (st, 0)

/-! ## Payment-to-charge allocator (`apply_payments_fifo`) -/

/-- An open item: tenant, kind (`"rent" | "nk" | "nka"`), due date
(ordinal), original amount and current open amount, all in cents. -/
structure Charge where
  tenantId : String
  kind : String
  dueDate : ℤ
  amountCents : ℤ
  openCents : ℤ
deriving DecidableEq

/-- The `Charge.__init__` constructor: a fresh charge starts with its
open amount equal to its original amount. -/
def Charge.make (tenantId kind : String) (dueDate amountCents : ℤ) : Charge :=
  ⟨tenantId, kind, dueDate, amountCents, amountCents⟩

/-- The kind rank used by the priority sort keys: each named priority
mode puts its kind first and ranks the others in a fixed fallback order. -/
def rankFor (priority kind : String) : ℤ :=
  if priority = "rent_first" then
    (if kind = "rent" then 0 else if kind = "nk" then 1 else 2)
  else if priority = "nk_first" then
    (if kind = "nk" then 0 else if kind = "rent" then 1 else 2)
  else
    (if kind = "nka" then 0 else if kind = "rent" then 1 else 2)

/-- The sort order of `apply_payments_fifo`'s `sort_key`: the three named
priority modes compare `(rank, due_date)` lexicographically; any other
mode (notably `"oldest"`) compares due dates only.  Python's `list.sort`
is stable, which `List.insertionSort` with this non-strict relation
reproduces. -/
def chargeLe (priority : String) (a b : Charge) : Prop :=
  if priority = "rent_first" ∨ priority = "nk_first" ∨ priority = "nka_first" then
    rankFor priority a.kind < rankFor priority b.kind ∨
      (rankFor priority a.kind = rankFor priority b.kind ∧ a.dueDate ≤ b.dueDate)
  else a.dueDate ≤ b.dueDate

instance instChargeLeDec (pr : String) : DecidableRel (chargeLe pr) := fun a b => by
  unfold chargeLe
  infer_instance

/-- The inner loop of `apply_payments_fifo` for one payment: walk the
charge list once, skipping settled charges, consuming
`min(c.open_cents, remaining)` from each open charge, and stopping when
the payment is exhausted.  Any unconsumed remainder is discarded. -/
def payCharges : List Charge → ℤ → List Charge
  | [], _ => []
  | c :: cs, remaining =>
    if remaining ≤ 0 then c :: cs
    else if c.openCents ≤ 0 then c :: payCharges cs remaining
    else
      { c with openCents := c.openCents - min c.openCents remaining } ::
        payCharges cs (remaining - min c.openCents remaining)

/-- `apply_payments_fifo(charges, payments, asof, priority)`: keep the
charges due by `asof` with positive open amount, sort them by the
priority key, keep the payments dated by `asof`, and apply each payment
in turn with `payCharges`.  Payments are pairs `(date, amount_cents)`. -/
def applyPaymentsFifo (charges : List Charge) (payments : List (ℤ × ℤ))
    (asof : ℤ) (priority : String) : List Charge :=
  (payments.filter (fun p => decide (p.1 ≤ asof))).foldl
    (fun acc p => payCharges acc p.2)
    ((charges.filter
        (fun c => decide (c.dueDate ≤ asof) && decide (0 < c.openCents))).insertionSort
      (chargeLe priority))

/-- The allocator as described by §4.4 of the specification: identical to
`applyPaymentsFifo` except that the eligible payments are explicitly
processed in chronological order of their dates, ties broken by original
insertion order (a stable sort by date).  Written to be compared with the
source-derived `applyPaymentsFifo`. -/
def applyPaymentsFifoSpec (charges : List Charge) (payments : List (ℤ × ℤ))
    (asof : ℤ) (priority : String) : List Charge :=
  (((payments.filter (fun p => decide (p.1 ≤ asof))).insertionSort
      (fun p q => p.1 ≤ q.1))).foldl
    (fun acc p => payCharges acc p.2)
    ((charges.filter
        (fun c => decide (c.dueDate ≤ asof) && decide (0 < c.openCents))).insertionSort
      (chargeLe priority))

/-! ## Aging bucketizer (`bucket_for`) -/

/-- `bucket_for(days_overdue)`: inclusive upper bounds 30, 60, 90. -/
def bucketFor (daysOverdue : ℤ) : String :=
  if daysOverdue ≤ 30 then "0-30"
  else if daysOverdue ≤ 60 then "31-60"
  else if daysOverdue ≤ 90 then "61-90"
  else "90+"

/-! ## Concrete data used by example instantiations -/

/-- A regex matcher that never matches; the example rules set no regex,
so any choice works. -/
def rfNone : String → String → Bool := fun _ _ => false

/-- Example bank row: id 1, amount 100 cents. -/
def bankW : BankRow := ⟨1, 0, 100, some "Miete"⟩

/-- Example rule: no conditions, so it matches every transaction. -/
def ruleW : RuleRow := ⟨1, "R", none, none, none, "any", 100, 1, none⟩

/-- Example remainder part for `ruleW`. -/
def remPartW : RulePart := ⟨1, 1, "3000", none, "remainder", none, none, none⟩

/-- Store on which `ruleW` allocates `bankW` successfully. -/
def stW : Store := ⟨[bankW], [ruleW], [remPartW], []⟩

/-- Store whose rule has no parts, so allocation fails with `noParts`. -/
def stNoParts : Store := ⟨[bankW], [ruleW], [], []⟩

/-- Store whose single bank row is already balanced by an existing split. -/
def stBal : Store := ⟨[bankW], [ruleW], [remPartW], [⟨1, "3000", none, 100, "manuell"⟩]⟩

/-- A fixed part of magnitude 5000 cents. -/
def fxPart : RulePart := ⟨1, 1, "3000", none, "fixed", some 5000, none, none⟩

/-- A remainder part listed after `fxPart`. -/
def remPart2 : RulePart := ⟨2, 1, "1000", none, "remainder", none, none, none⟩

/-- A percent part of 100.01 percent. -/
def pctPart : RulePart := ⟨1, 1, "3000", none, "percent", none, some (10001 / 100), none⟩

/-- Ordinal of 2025-07-03. -/
def d0703 : ℤ := toOrdinal 2025 7 3

/-- Ordinal of 2025-07-05. -/
def d0705 : ℤ := toOrdinal 2025 7 5

/-- July rent charge of the FIFO example: due 2025-07-03, 85000 cents. -/
def rentJul : Charge := Charge.make "M001" "rent" d0703 85000

/-- July operating-cost charge of the FIFO example: due 2025-07-03,
20000 cents. -/
def nkJul : Charge := Charge.make "M001" "nk" d0703 20000

/-! ## Lemmas about `payCharges` -/

/-- A non-positive payment changes nothing. -/
theorem payCharges_nonpos {r : ℤ} (cs : List Charge) (h : r ≤ 0) :
    payCharges cs r = cs := by
  cases cs with
  | nil => rfl
  | cons c cs => simp [payCharges, if_pos h]

/-- Applying two non-negative payments in sequence equals applying their
sum: the second payment resumes exactly where the first stopped, because
settled charges are skipped. -/
theorem payCharges_add :
    ∀ (cs : List Charge) (a b : ℤ), 0 ≤ a → 0 ≤ b →
      payCharges (payCharges cs a) b = payCharges cs (a + b) := by
  intro cs
  induction cs with
  | nil => intro a b _ _; simp [payCharges]
  | cons c cs ih =>
    intro a b ha hb
    rcases eq_or_lt_of_le ha with ha0 | hapos
    · rw [← ha0, payCharges_nonpos _ le_rfl, zero_add]
    · rcases eq_or_lt_of_le hb with hb0 | hbpos
      · rw [← hb0, payCharges_nonpos _ le_rfl, add_zero]
      · have hna : ¬ a ≤ 0 := by omega
        have hnb : ¬ b ≤ 0 := by omega
        have hnab : ¬ a + b ≤ 0 := by omega
        by_cases hop : c.openCents ≤ 0
        · simp only [payCharges, if_neg hna, if_pos hop, if_neg hnab, if_neg hnb]
          rw [ih a b hapos.le hbpos.le]
        · push_neg at hop
          have hml := min_le_left c.openCents a
          have hmr := min_le_right c.openCents a
          by_cases hca : c.openCents ≤ a
          · have hmin : min c.openCents a = c.openCents := min_eq_left hca
            have hmin2 : min c.openCents (a + b) = c.openCents :=
              min_eq_left (by omega)
            simp only [payCharges, if_neg hna, if_neg hnab, if_neg (not_le.mpr hop),
              hmin, hmin2, sub_self]
            have hz : ¬ (0 : ℤ) > 0 := by omega
            simp only [payCharges, if_neg hnb]
            rw [if_pos (le_refl (0 : ℤ))]
            rw [ih (a - c.openCents) b (by omega) hbpos.le]
            have harg : a - c.openCents + b = a + b - c.openCents := by ring
            rw [harg]
          · push_neg at hca
            have hmin : min c.openCents a = a := min_eq_right hca.le
            simp only [payCharges, if_neg hna, if_neg hnab, if_neg (not_le.mpr hop),
              hmin, sub_self]
            rw [payCharges_nonpos cs le_rfl]
            have hop2 : ¬ c.openCents - a ≤ 0 := by omega
            simp only [payCharges, if_neg hnb, if_neg hop2]
            by_cases h2 : c.openCents - a ≤ b
            · have hmin3 : min (c.openCents - a) b = c.openCents - a :=
                min_eq_left h2
              have hmin4 : min c.openCents (a + b) = c.openCents :=
                min_eq_left (by omega)
              rw [hmin3, hmin4]
              have he1 : c.openCents - a - (c.openCents - a) = c.openCents - c.openCents := by
                ring
              have he2 : b - (c.openCents - a) = a + b - c.openCents := by ring
              rw [he1, he2]
            · push_neg at h2
              have hmin3 : min (c.openCents - a) b = b := min_eq_right h2.le
              have hmin4 : min c.openCents (a + b) = a + b :=
                min_eq_right (by omega)
              rw [hmin3, hmin4]
              have he1 : c.openCents - a - b = c.openCents - (a + b) := by ring
              have he2 : b - b = a + b - (a + b) := by ring
              rw [he1, he2]

/-- Two payments may be applied in either order. -/
theorem payCharges_comm (cs : List Charge) (a b : ℤ) :
    payCharges (payCharges cs a) b = payCharges (payCharges cs b) a := by
  by_cases ha : a ≤ 0
  · rw [payCharges_nonpos cs ha, payCharges_nonpos _ ha]
  · by_cases hb : b ≤ 0
    · rw [payCharges_nonpos _ hb, payCharges_nonpos cs hb]
    · push_neg at ha hb
      rw [payCharges_add cs a b ha.le hb.le, payCharges_add cs b a hb.le ha.le,
        add_comm]

/-- Folding `payCharges` over a list of payments is invariant under
permutations of that list. -/
theorem foldl_pay_perm {ps₁ ps₂ : List (ℤ × ℤ)} (h : ps₁.Perm ps₂) :
    ∀ cs : List Charge,
      ps₁.foldl (fun acc p => payCharges acc p.2) cs =
        ps₂.foldl (fun acc p => payCharges acc p.2) cs := by
  induction h with
  | nil => intro cs; rfl
  | cons x _ ih => intro cs; simp only [List.foldl_cons]; exact ih _
  | swap x y l => intro cs; simp only [List.foldl_cons]; rw [payCharges_comm]
  | trans _ _ ih₁ ih₂ => intro cs; rw [ih₁, ih₂]

/-- Folding non-negative payments equals applying one pooled payment of
their total. -/
theorem foldl_pay_sum :
    ∀ (ps : List (ℤ × ℤ)) (cs : List Charge), (∀ p ∈ ps, 0 ≤ p.2) →
      ps.foldl (fun acc p => payCharges acc p.2) cs =
        payCharges cs ((ps.map Prod.snd).sum) := by
  intro ps
  induction ps with
  | nil => intro cs _; simp [payCharges_nonpos cs le_rfl]
  | cons p ps ih =>
    intro cs h
    simp only [List.foldl_cons, List.map_cons, List.sum_cons]
    rw [ih _ (fun q hq => h q (List.mem_cons_of_mem _ hq)),
      payCharges_add cs p.2 _ (h p (List.mem_cons_self _ _))
        (List.sum_nonneg (by
          intro x hx
          obtain ⟨q, hq, rfl⟩ := List.mem_map.mp hx
          exact h q (List.mem_cons_of_mem _ hq)))]

/-- Every charge in the output of `payCharges` comes from a charge of the
input with no larger open amount, un-negated open amount, and the same
other fields. -/
theorem payCharges_mem :
    ∀ (cs : List Charge) (r : ℤ) (c' : Charge), c' ∈ payCharges cs r →
      ∃ c ∈ cs, c'.openCents ≤ c.openCents ∧
        (0 ≤ c.openCents → 0 ≤ c'.openCents) ∧ c'.amountCents = c.amountCents := by
  intro cs
  induction cs with
  | nil => intro r c' h; simp [payCharges] at h
  | cons c cs ih =>
    intro r c' h
    by_cases hr : r ≤ 0
    · rw [payCharges_nonpos _ hr] at h
      exact ⟨c', h, le_rfl, fun hx => hx, rfl⟩
    · by_cases hop : c.openCents ≤ 0
      · simp only [payCharges, if_neg hr, if_pos hop] at h
        rcases List.mem_cons.mp h with rfl | h
        · exact ⟨c', List.mem_cons_self _ _, le_rfl, fun hx => hx, rfl⟩
        · obtain ⟨c₀, hc₀, hle, hpos, hamt⟩ := ih r c' h
          exact ⟨c₀, List.mem_cons_of_mem _ hc₀, hle, hpos, hamt⟩
      · simp only [payCharges, if_neg hr, if_neg hop] at h
        rcases List.mem_cons.mp h with rfl | h
        · refine ⟨c, List.mem_cons_self _ _, ?_, ?_, rfl⟩
          · have := min_le_left c.openCents r
            have := min_le_right c.openCents r
            simp only []
            omega
          · have := min_le_left c.openCents r
            intro _
            simp only []
            omega
        · obtain ⟨c₀, hc₀, hle, hpos, hamt⟩ := ih _ c' h
          exact ⟨c₀, List.mem_cons_of_mem _ hc₀, hle, hpos, hamt⟩

/-- The fold of `payCharges` preserves `0 ≤ open ≤ amount` for every
charge. -/
theorem foldl_pay_inv :
    ∀ (ps : List (ℤ × ℤ)) (cs : List Charge),
      (∀ c ∈ cs, 0 ≤ c.openCents ∧ c.openCents ≤ c.amountCents) →
      ∀ c' ∈ ps.foldl (fun acc p => payCharges acc p.2) cs,
        0 ≤ c'.openCents ∧ c'.openCents ≤ c'.amountCents := by
  intro ps
  induction ps with
  | nil => intro cs h c' hc'; exact h c' hc'
  | cons p ps ih =>
    intro cs h c' hc'
    simp only [List.foldl_cons] at hc'
    refine ih _ ?_ c' hc'
    intro c₀ hc₀
    obtain ⟨c, hc, hle, hpos, hamt⟩ := payCharges_mem _ _ _ hc₀
    obtain ⟨h1, h2⟩ := h c hc
    exact ⟨hpos h1, by rw [hamt]; omega⟩

/-! ## Claims about the payment-to-charge allocator and the bucketizer -/

/-- Claim C4: the payment-to-charge allocator processes the eligible
payments in chronological order of their dates, ties broken by original
insertion order; per payment it walks the priority-sorted charge list
once, consuming `min(charge.open, payment.remaining)` from each open
charge until the payment is exhausted, and a payment's leftover is
discarded.  Formally: the source allocator `applyPaymentsFifo` (which
walks the payments in the order the caller supplies them) computes
exactly the same result as the spec-side `applyPaymentsFifoSpec`, which
performs that walk on the chronologically (stably) sorted payments. -/
theorem apply_payments_fifo_chronological (charges : List Charge)
    (payments : List (ℤ × ℤ)) (asof : ℤ) (priority : String) :
    applyPaymentsFifo charges payments asof priority =
      applyPaymentsFifoSpec charges payments asof priority := by
  unfold applyPaymentsFifo applyPaymentsFifoSpec
  exact (foldl_pay_perm (List.perm_insertionSort _ _) _).symm

/-- Claim C10: the result of the payment-to-charge allocator depends only
on the total of the (non-negatively valued) payment amounts dated on or
before the as-of date, so it is invariant under any permutation of the
payment list: two payment lists with equal eligible totals produce equal
final charge states. -/
theorem payments_pooled_invariance (charges : List Charge)
    (ps₁ ps₂ : List (ℤ × ℤ)) (asof : ℤ) (priority : String)
    (h₁ : ∀ p ∈ ps₁, 0 ≤ p.2) (h₂ : ∀ p ∈ ps₂, 0 ≤ p.2)
    (hsum : ((ps₁.filter (fun p => decide (p.1 ≤ asof))).map Prod.snd).sum =
      ((ps₂.filter (fun p => decide (p.1 ≤ asof))).map Prod.snd).sum) :
    applyPaymentsFifo charges ps₁ asof priority =
      applyPaymentsFifo charges ps₂ asof priority := by
  unfold applyPaymentsFifo
  rw [foldl_pay_sum _ _ (fun p hp => h₁ p (List.mem_filter.mp hp).1),
    foldl_pay_sum _ _ (fun p hp => h₂ p (List.mem_filter.mp hp).1), hsum]

/-- Witness for C10 at a concrete input: two payments of 100 and 200
cents allocate like one payment of 300 cents. -/
theorem payments_pooled_invariance_witness :
    applyPaymentsFifo [rentJul] [(d0705, 100), (d0705, 200)] d0705 "oldest" =
      applyPaymentsFifo [rentJul] [(d0705, 300)] d0705 "oldest" :=
  payments_pooled_invariance [rentJul] [(d0705, 100), (d0705, 200)]
    [(d0705, 300)] d0705 "oldest" (by decide) (by decide) (by decide)

/-- Claim C9: every charge starts with its open amount equal to its
original amount; one step of the allocator only ever decreases open
amounts, never below zero, and never touches the other fields; and
consequently `0 ≤ open ≤ amount` holds for every charge produced by the
allocator (given inputs with `open ≤ amount`, as built by
`Charge.make`). -/
theorem charge_open_invariant :
    (∀ (t k : String) (d a : ℤ),
      (Charge.make t k d a).openCents = a ∧ (Charge.make t k d a).amountCents = a) ∧
    (∀ (cs : List Charge) (r : ℤ),
      List.Forall₂
        (fun c' c => c'.openCents ≤ c.openCents ∧
          (0 ≤ c.openCents → 0 ≤ c'.openCents) ∧ c'.amountCents = c.amountCents ∧
          c'.tenantId = c.tenantId ∧ c'.kind = c.kind ∧ c'.dueDate = c.dueDate)
        (payCharges cs r) cs) ∧
    (∀ (charges : List Charge) (ps : List (ℤ × ℤ)) (asof : ℤ) (pr : String),
      (∀ c ∈ charges, c.openCents ≤ c.amountCents) →
      ∀ c' ∈ applyPaymentsFifo charges ps asof pr,
        0 ≤ c'.openCents ∧ c'.openCents ≤ c'.amountCents) := by
  refine ⟨fun t k d a => ⟨rfl, rfl⟩, ?_, ?_⟩
  · intro cs
    induction cs with
    | nil => intro r; simp [payCharges]
    | cons c cs ih =>
      intro r
      by_cases hr : r ≤ 0
      · rw [payCharges_nonpos _ hr]
        exact List.forall₂_same.mpr
          (fun x _ => ⟨le_rfl, fun hx => hx, rfl, rfl, rfl, rfl⟩)
      · by_cases hop : c.openCents ≤ 0
        · simp only [payCharges, if_neg hr, if_pos hop]
          exact List.Forall₂.cons ⟨le_rfl, fun hx => hx, rfl, rfl, rfl, rfl⟩ (ih r)
        · simp only [payCharges, if_neg hr, if_neg hop]
          refine List.Forall₂.cons ?_ (ih _)
          have h1 := min_le_left c.openCents r
          have h2 := min_le_right c.openCents r
          exact ⟨by simp only []; omega, fun _ => by simp only []; omega, rfl, rfl,
            rfl, rfl⟩
  · intro charges ps asof pr h c' hc'
    unfold applyPaymentsFifo at hc'
    refine foldl_pay_inv _ _ ?_ c' hc'
    intro c hc
    rw [List.mem_insertionSort] at hc
    obtain ⟨hmem, hcond⟩ := List.mem_filter.mp hc
    simp only [Bool.and_eq_true, decide_eq_true_eq] at hcond
    exact ⟨hcond.2.le, h c hmem⟩

/-- Witness for C9 at a concrete input: a payment of 40 on a charge of
100 leaves `0 ≤ 60 ≤ 100`. -/
theorem charge_open_invariant_witness :
    0 ≤ (⟨"t", "rent", 0, 100, 60⟩ : Charge).openCents ∧
      (⟨"t", "rent", 0, 100, 60⟩ : Charge).openCents ≤
        (⟨"t", "rent", 0, 100, 60⟩ : Charge).amountCents :=
  charge_open_invariant.2.2 [Charge.make "t" "rent" 0 100] [(0, 40)] 0 "oldest"
    (by decide) ⟨"t", "rent", 0, 100, 60⟩ (by decide)

/-- Claim C8: the aging bucketizer is total on integer days-overdue with
inclusive upper bounds: anything at most 30 (including zero and
negatives) is "0-30", 31..60 is "31-60", 61..90 is "61-90", anything
above 90 is "90+"; in particular 30, 31, 60, 61, 90, 91 map to "0-30",
"31-60", "31-60", "61-90", "61-90", "90+". -/
theorem bucket_boundaries (n : ℤ) :
    (n ≤ 30 → bucketFor n = "0-30") ∧
    (31 ≤ n ∧ n ≤ 60 → bucketFor n = "31-60") ∧
    (61 ≤ n ∧ n ≤ 90 → bucketFor n = "61-90") ∧
    (90 < n → bucketFor n = "90+") ∧
    (bucketFor 30 = "0-30" ∧ bucketFor 31 = "31-60" ∧ bucketFor 60 = "31-60" ∧
      bucketFor 61 = "61-90" ∧ bucketFor 90 = "61-90" ∧ bucketFor 91 = "90+") := by
  refine ⟨?_, ?_, ?_, ?_, by decide⟩
  · intro h; unfold bucketFor; rw [if_pos h]
  · rintro ⟨h1, h2⟩; unfold bucketFor; rw [if_neg (by omega), if_pos h2]
  · rintro ⟨h1, h2⟩; unfold bucketFor
    rw [if_neg (by omega), if_neg (by omega), if_pos h2]
  · intro h; unfold bucketFor
    rw [if_neg (by omega), if_neg (by omega), if_neg (by omega)]

/-- Witness for C8 at a concrete input: 45 days overdue is "31-60". -/
theorem bucket_boundaries_witness : bucketFor 45 = "31-60" :=
  (bucket_boundaries 45).2.1 (by decide)

/-- Claim C3: with the charges rent (due 2025-07-03, 85000, fully open)
and operating cost "nk" (due 2025-07-03, 20000, fully open) and the
single payment (2025-07-05, 90000), for any as-of date on or after
2025-07-05, priority "oldest" leaves rent open 0 and nk open 15000,
while priority "nk_first" leaves nk open 0 and rent open 15000. -/
theorem fifo_example_priorities (asof : ℤ) (h : d0705 ≤ asof) :
    applyPaymentsFifo [rentJul, nkJul] [(d0705, 90000)] asof "oldest" =
      [⟨"M001", "rent", d0703, 85000, 0⟩, ⟨"M001", "nk", d0703, 20000, 15000⟩] ∧
    applyPaymentsFifo [rentJul, nkJul] [(d0705, 90000)] asof "nk_first" =
      [⟨"M001", "nk", d0703, 20000, 0⟩, ⟨"M001", "rent", d0703, 85000, 15000⟩] := by
  have h3 : d0703 ≤ asof := le_trans (by decide) h
  have hfc : ([rentJul, nkJul].filter
      (fun c => decide (c.dueDate ≤ asof) && decide (0 < c.openCents))) =
      [rentJul, nkJul] := by
    apply List.filter_eq_self.mpr
    intro a ha
    rcases List.mem_cons.mp ha with rfl | ha
    · simp [rentJul, Charge.make, h3]
    · rcases List.mem_cons.mp ha with rfl | ha
      · simp [nkJul, Charge.make, h3]
      · simp at ha
  have hfp : ([(d0705, (90000 : ℤ))].filter (fun p => decide (p.1 ≤ asof))) =
      [(d0705, 90000)] := by
    apply List.filter_eq_self.mpr
    intro a ha
    rcases List.mem_cons.mp ha with rfl | ha
    · simp [h]
    · simp at ha
  constructor
  · unfold applyPaymentsFifo
    rw [hfc, hfp]
    decide
  · unfold applyPaymentsFifo
    rw [hfc, hfp]
    decide

/-- Witness for C3: the statement instantiated at as-of = 2025-07-05. -/
theorem fifo_example_priorities_witness :
    applyPaymentsFifo [rentJul, nkJul] [(d0705, 90000)] d0705 "oldest" =
      [⟨"M001", "rent", d0703, 85000, 0⟩, ⟨"M001", "nk", d0703, 20000, 15000⟩] :=
  (fifo_example_priorities d0705 (by decide)).1

/-! ## Lemmas about the split allocator -/

/-- If the full split computation succeeds, the computed amounts sum to
the transaction amount (the terminal check guarantees it). -/
theorem computeSplits_total {amt : ℤ} {parts : List RulePart}
    {ns : List SplitIns} (h : computeSplits amt parts = Except.ok ns) :
    splitsTotal ns = amt := by
  unfold computeSplits at h
  split at h
  · exact absurd h (by simp)
  · split at h
    · exact absurd h (by simp)
    · rename_i hcond
      injection h with h2
      rw [← h2]
      exact not_not.mp hcond

/-- `apply_rule_to_bank` only ever appends splits, and every split it
appends belongs to the requested bank transaction. -/
theorem applyRuleToBank_store (rf : String → String → Bool) (st : Store)
    (rid bid : ℤ) :
    ∃ ns : List SplitRow,
      (applyRuleToBank rf st rid bid).1 = { st with splits := st.splits ++ ns } ∧
      ∀ s ∈ ns, s.bankId = bid := by
  unfold applyRuleToBank
  cases hb : st.bank.find? (fun b => decide (b.id = bid)) with
  | none => exact ⟨[], by simp, by simp⟩
  | some b =>
    cases hr : st.rules.find? (fun r => decide (r.id = rid)) with
    | none => exact ⟨[], by simp, by simp⟩
    | some r =>
      dsimp only
      by_cases hm : matchRule rf r b
      · rw [if_pos hm]
        cases hcs : computeSplits b.amountCents (partsOf st rid) with
        | error e => exact ⟨[], by simp, by simp⟩
        | ok ns =>
          refine ⟨ns.map (toSplitRow bid r.name), rfl, ?_⟩
          intro s hs
          obtain ⟨a, _, rfl⟩ := List.mem_map.mp hs
          rfl
      · rw [if_neg hm]
        exact ⟨[], by simp, by simp⟩

/-- `tryRules` only ever appends splits of the bank row it works on. -/
theorem tryRules_store (rf : String → String → Bool) (rules : List RuleRow)
    (b : BankRow) :
    ∀ st : Store,
      ∃ ns : List SplitRow,
        (tryRules rf rules st b).1 = { st with splits := st.splits ++ ns } ∧
        ∀ s ∈ ns, s.bankId = b.id := by
  induction rules with
  | nil => intro st; exact ⟨[], by simp [tryRules], by simp⟩
  | cons r rest ih =>
    intro st
    unfold tryRules
    by_cases hm : matchRule rf r b
    · rw [if_pos hm]
      obtain ⟨ns₁, h₁, hb₁⟩ := applyRuleToBank_store rf st r.id b.id
      rcases happ : applyRuleToBank rf st r.id b.id with ⟨st2, res⟩
      rw [happ] at h₁
      have hst2 : st2 = { st with splits := st.splits ++ ns₁ } := h₁
      cases res with
      | ok k => exact ⟨ns₁, hst2, hb₁⟩
      | error e =>
        obtain ⟨ns₂, h₂, hb₂⟩ := ih st2
        refine ⟨ns₁ ++ ns₂, ?_, ?_⟩
        · rw [h₂, hst2]
          simp [List.append_assoc]
        · intro s hs
          rcases List.mem_append.mp hs with hs | hs
          · exact hb₁ s hs
          · exact hb₂ s hs
    · rw [if_neg hm]
      exact ih st

/-- Appending splits of other bank transactions does not change the
splits of transaction `i`. -/
theorem splitsFor_append_ne (st : Store) (ns : List SplitRow) (i : ℤ)
    (h : ∀ s ∈ ns, ¬ s.bankId = i) :
    splitsFor { st with splits := st.splits ++ ns } i = splitsFor st i := by
  unfold splitsFor
  show (st.splits ++ ns).filter (fun s => decide (s.bankId = i)) =
    st.splits.filter (fun s => decide (s.bankId = i))
  rw [List.filter_append,
    show List.filter (fun s => decide (s.bankId = i)) ns = [] from
      List.filter_eq_nil_iff.mpr (fun s hs => by simpa using h s hs),
    List.append_nil]

/-- The batch fold leaves the splits of a balanced transaction alone:
if the splits of transaction `bId` currently form `F` whose amounts sum
to `bAmt`, and every processed bank row with id `bId` has amount `bAmt`,
then the fold never touches transaction `bId`'s splits. -/
theorem applyRules_fold_preserve (rf : String → String → Bool)
    (rules : List RuleRow) (bId bAmt : ℤ) (F : List SplitRow)
    (hF : (F.map SplitRow.amountCents).sum = bAmt) :
    ∀ (rows : List BankRow) (acc : Store × ℕ),
      (∀ b' ∈ rows, b'.id = bId → b'.amountCents = bAmt) →
      splitsFor acc.1 bId = F →
      splitsFor ((rows.foldl (applyStep rf rules) acc).1) bId = F := by
  intro rows
  induction rows with
  | nil => intro acc _ hacc; exact hacc
  | cons b' rows ih =>
    intro acc hrows hacc
    simp only [List.foldl_cons]
    apply ih _ (fun x hx hid => hrows x (List.mem_cons_of_mem _ hx) hid)
    unfold applyStep
    by_cases hskip : splitSum acc.1 b'.id = b'.amountCents
    · rw [if_pos hskip]; exact hacc
    · rw [if_neg hskip]
      have hne : ¬ b'.id = bId := by
        intro hid
        apply hskip
        rw [hid, hrows b' (List.mem_cons_self _ _) hid]
        unfold splitSum
        rw [hacc, hF]
      obtain ⟨ns, hst, hbk⟩ := tryRules_store rf rules b' acc.1
      rcases htr : tryRules rf rules acc.1 b' with ⟨st2, flag⟩
      rw [htr] at hst
      have hkey : splitsFor st2 bId = F := by
        rw [show st2 = { acc.1 with splits := acc.1.splits ++ ns } from hst,
          splitsFor_append_ne _ _ _ (fun s hs => by rw [hbk s hs]; exact hne)]
        exact hacc
      cases flag
      · exact hkey
      · exact hkey

/-- Every fixed part carrying a value makes the fixed pass total. -/
theorem fixedPass_ok (bankAmt : ℤ) :
    ∀ (ps : List RulePart) (acc : ℤ × List SplitIns),
      (∀ p ∈ ps, p.kind = "fixed" → ¬ p.valueCents = none) →
      ∃ acc', fixedPass bankAmt ps acc = Except.ok acc' := by
  intro ps
  induction ps with
  | nil => intro acc _; exact ⟨acc, rfl⟩
  | cons p ps ih =>
    intro acc h
    unfold fixedPass
    by_cases hk : p.kind = "fixed"
    · rw [if_pos hk]
      cases hv : p.valueCents with
      | none => exact absurd hv (h p (List.mem_cons_self _ _) hk)
      | some v => exact ih _ (fun q hq => h q (List.mem_cons_of_mem _ hq))
    · rw [if_neg hk]
      exact ih _ (fun q hq => h q (List.mem_cons_of_mem _ hq))

/-! ## Claims about the split allocator -/

/-- Claim C1: whenever `apply_rule_to_bank` reports success, the splits
it inserted sum exactly to the transaction's amount (integer equality);
and whenever the computed split amounts do not sum to the transaction
amount, the computation is rejected with the balance-mismatch error (so
no splits are produced). -/
theorem apply_rule_balance :
    (∀ (rf : String → String → Bool) (st : Store) (rid bid : ℤ)
      (st' : Store) (n : ℕ) (b : BankRow),
      st.bank.find? (fun x => decide (x.id = bid)) = some b →
      applyRuleToBank rf st rid bid = (st', Except.ok n) →
      ∃ ns : List SplitRow, st'.splits = st.splits ++ ns ∧
        (ns.map SplitRow.amountCents).sum = b.amountCents) ∧
    (∀ (amt : ℤ) (parts : List RulePart) (ns : List SplitIns),
      computeSplitsRaw amt parts = Except.ok ns → ¬ splitsTotal ns = amt →
      computeSplits amt parts = Except.error AllocErr.balanceMismatch) := by
  constructor
  · intro rf st rid bid st' n b hfind happ
    unfold applyRuleToBank at happ
    rw [hfind] at happ
    cases hr : st.rules.find? (fun r => decide (r.id = rid)) with
    | none => rw [hr] at happ; simp at happ
    | some r =>
      rw [hr] at happ
      dsimp only at happ
      by_cases hm : matchRule rf r b
      · rw [if_pos hm] at happ
        cases hcs : computeSplits b.amountCents (partsOf st rid) with
        | error e => rw [hcs] at happ; simp at happ
        | ok ns =>
          rw [hcs] at happ
          simp only [Prod.mk.injEq] at happ
          refine ⟨ns.map (toSplitRow bid r.name), ?_, ?_⟩
          · rw [← happ.1]
          · have : ((ns.map (toSplitRow bid r.name)).map SplitRow.amountCents) =
                ns.map SplitIns.amount := by
              rw [List.map_map]
              rfl
            rw [this]
            exact computeSplits_total hcs
      · rw [if_neg hm] at happ
        simp at happ
  · intro amt parts ns hraw hne
    unfold computeSplits
    rw [hraw]
    dsimp only
    rw [if_pos hne]

/-- Claim C2: a failing allocation performs no store writes at all — on
any error outcome of `apply_rule_to_bank` the store is returned
unchanged (in particular zero splits are inserted). -/
theorem apply_rule_error_no_side_effects (rf : String → String → Bool)
    (st : Store) (rid bid : ℤ) (st2 : Store) (e : AllocErr)
    (h : applyRuleToBank rf st rid bid = (st2, Except.error e)) : st2 = st := by
  unfold applyRuleToBank at h
  cases hb : st.bank.find? (fun b => decide (b.id = bid)) with
  | none => rw [hb] at h; simp at h; exact h.1.symm
  | some b =>
    rw [hb] at h
    cases hr : st.rules.find? (fun r => decide (r.id = rid)) with
    | none => rw [hr] at h; simp at h; exact h.1.symm
    | some r =>
      rw [hr] at h
      dsimp only at h
      by_cases hm : matchRule rf r b
      · rw [if_pos hm] at h
        cases hcs : computeSplits b.amountCents (partsOf st rid) with
        | error e2 => rw [hcs] at h; simp at h; exact h.1.symm
        | ok ns => rw [hcs] at h; simp at h
      · rw [if_neg hm] at h
        simp at h
        exact h.1.symm

/-- Claim C5: batch rule application skips transactions that are already
balanced: for every bank transaction whose splits sum to its amount, the
batch pass inserts zero new splits for it, so a re-run after a
successful run adds nothing to any transaction it balanced. -/
theorem cmd_apply_rules_idempotent (rf : String → String → Bool) (st : Store)
    (b : BankRow) (hmem : b ∈ st.bank)
    (hids : (st.bank.map BankRow.id).Nodup)
    (hbal : splitSum st b.id = b.amountCents) :
    splitsFor (cmdApplyRules rf st).1 b.id = splitsFor st b.id := by
  unfold cmdApplyRules
  refine applyRules_fold_preserve rf (rulesSorted st) b.id b.amountCents
    (splitsFor st b.id) hbal _ (st, 0) ?_ rfl
  intro b' hb' hid
  have hb'mem : b' ∈ st.bank := (List.mem_insertionSort _).mp hb'
  have : b' = b := List.inj_on_of_nodup_map hids hb'mem hmem hid
  rw [this]

/-- Claim C6: a rule whose percent parts sum to more than 100% plus the
negligible epsilon (the source constant `100.000001`) is rejected with
the percent-overflow error — before any split is computed
(`computeSplitsRaw` already fails) and before anything is written (the
store is unchanged for any transaction).  Fixed parts are assumed to
carry values, as the CLI enforces on creation. -/
theorem percent_overflow_rejected (parts : List RulePart) (psum : ℚ)
    (pps : List PercentPart)
    (hfx : ∀ p ∈ parts, p.kind = "fixed" → ¬ p.valueCents = none)
    (hpp : percentPass parts (0, []) = Except.ok (psum, pps))
    (hgt : (100.000001 : ℚ) < psum) :
    (∀ amt, computeSplitsRaw amt parts = Except.error AllocErr.percentOverflow) ∧
    (∀ amt, computeSplits amt parts = Except.error AllocErr.percentOverflow) ∧
    (∀ (rf : String → String → Bool) (st : Store) (rid bid : ℤ),
      partsOf st rid = parts → (applyRuleToBank rf st rid bid).1 = st) := by
  have hne : ¬ parts = [] := by
    intro hnil
    rw [hnil] at hpp
    unfold percentPass at hpp
    injection hpp with hpp2
    have : psum = 0 := by
      have := congrArg Prod.fst hpp2
      exact this.symm
    rw [this] at hgt
    norm_num at hgt
  have h1 : ∀ amt, computeSplitsRaw amt parts =
      Except.error AllocErr.percentOverflow := by
    intro amt
    obtain ⟨acc', hfix⟩ := fixedPass_ok amt parts (amt, []) hfx
    unfold computeSplitsRaw
    rw [if_neg hne, hfix, hpp]
    dsimp only
    rw [if_pos hgt]
  have h2 : ∀ amt, computeSplits amt parts =
      Except.error AllocErr.percentOverflow := by
    intro amt
    unfold computeSplits
    rw [h1 amt]
  refine ⟨h1, h2, ?_⟩
  intro rf st rid bid hparts
  unfold applyRuleToBank
  cases hb : st.bank.find? (fun x => decide (x.id = bid)) with
  | none => rfl
  | some b =>
    cases hr : st.rules.find? (fun r => decide (r.id = rid)) with
    | none => rfl
    | some r =>
      dsimp only
      by_cases hm : matchRule rf r b
      · rw [if_pos hm, hparts, h2 b.amountCents]
      · rw [if_neg hm]

/-! ## Concrete evaluations of the allocator

`decide`/`rfl` cannot evaluate through the rational comparison
`100.000001 < percent_sum` (rational normalization does not reduce in the
kernel), so concrete allocator runs are evaluated by `simp`/`norm_num`
once here and reused below. -/

/-- The percent-overflow threshold is not below zero (the percent check
passes for rules without percent parts). -/
theorem hundredEps_nonneg : ¬ (100.000001 : ℚ) < 0 := by norm_num

/-- The overflow threshold is exceeded by a percent sum of 100.01. -/
theorem hundredEps_lt : (100.000001 : ℚ) < 0 + 10001 / 100 := by norm_num

/-- Allocating `ruleW` (single remainder part) on `bankW` inserts one
split of the full amount with the fallback note. -/
theorem applyW_eval : applyRuleToBank rfNone stW 1 1 =
    (⟨[bankW], [ruleW], [remPartW], [⟨1, "3000", none, 100, "Auto: Regel R"⟩]⟩,
      Except.ok 1) := by
  simp [applyRuleToBank, stW, bankW, ruleW, remPartW, rfNone, matchRule, likeFails,
    regexFails, belowMin, aboveMax, signFails, signOf, partsOf, computeSplits,
    computeSplitsRaw, fixedPass, percentPass, percentLoop, splitsTotal, toSplitRow,
    List.insertionSort, List.orderedInsert, hundredEps_nonneg]

/-- Allocation on the store whose rule has no parts fails with
`noParts`. -/
theorem noParts_eval : applyRuleToBank rfNone stNoParts 1 1 =
    (stNoParts, Except.error AllocErr.noParts) := by
  rfl

/-- A fixed part of 5000 on a transaction of -12000 yields splits
-5000 (sign-coerced) and -7000 (remainder). -/
theorem fx_eval : computeSplits (-12000) [fxPart, remPart2] =
    Except.ok [⟨"3000", none, -5000, none⟩, ⟨"1000", none, -7000, none⟩] := by
  simp [computeSplits, computeSplitsRaw, fixedPass, percentPass, percentLoop,
    fixedAmt, splitsTotal, fxPart, remPart2, hundredEps_nonneg]

/-- Witness for C1: the successful allocation of `ruleW` on `bankW`
inserts splits summing to the bank amount 100. -/
theorem apply_rule_balance_witness :
    ∃ ns : List SplitRow,
      (applyRuleToBank rfNone stW 1 1).1.splits = stW.splits ++ ns ∧
      (ns.map SplitRow.amountCents).sum = bankW.amountCents :=
  apply_rule_balance.1 rfNone stW 1 1 (applyRuleToBank rfNone stW 1 1).1 1 bankW rfl
    (by rw [applyW_eval])

/-- Witness for C2: the failed (`noParts`) allocation leaves the store
unchanged. -/
theorem apply_rule_error_no_side_effects_witness :
    (applyRuleToBank rfNone stNoParts 1 1).1 = stNoParts :=
  apply_rule_error_no_side_effects rfNone stNoParts 1 1
    (applyRuleToBank rfNone stNoParts 1 1).1 AllocErr.noParts (by rw [noParts_eval])

/-- Witness for C5: the batch pass leaves the already-balanced `stBal`
transaction's splits unchanged. -/
theorem cmd_apply_rules_idempotent_witness :
    splitsFor (cmdApplyRules rfNone stBal).1 bankW.id = splitsFor stBal bankW.id :=
  cmd_apply_rules_idempotent rfNone stBal bankW (by decide) (by decide) (by decide)

/-- Witness for C6: a single percent part of 100.01% is rejected with
`percentOverflow`. -/
theorem percent_overflow_rejected_witness :
    computeSplits 100 [pctPart] = Except.error AllocErr.percentOverflow :=
  (percent_overflow_rejected [pctPart] (0 + 10001 / 100)
    [⟨"3000", none, 10001 / 100, none⟩] (by decide) rfl hundredEps_lt).2.1 100

/-- Claim C7: a fixed part's split amount keeps the part's magnitude but
always carries the transaction's sign, never the part's own: it is
non-negative for positive transactions and non-positive for negative
ones; in particular a fixed part of magnitude 5000 on a transaction of
-12000 yields -5000 (and, through the full allocator with a remainder
part, the splits -5000 and -7000). -/
theorem fixed_part_sign_coercion (bankAmt v : ℤ) :
    (fixedAmt bankAmt v).natAbs = v.natAbs ∧
    (0 < bankAmt → 0 ≤ fixedAmt bankAmt v) ∧
    (bankAmt < 0 → fixedAmt bankAmt v ≤ 0) ∧
    fixedAmt (-12000) 5000 = -5000 ∧
    computeSplits (-12000) [fxPart, remPart2] =
      Except.ok [⟨"3000", none, -5000, none⟩, ⟨"1000", none, -7000, none⟩] := by
  refine ⟨?_, ?_, ?_, by decide, fx_eval⟩
  · unfold fixedAmt; split_ifs with hc <;> omega
  · intro h; unfold fixedAmt; split_ifs with hc <;> omega
  · intro h; unfold fixedAmt; split_ifs with hc <;> omega

/-- Witness for C7: at the claim's concrete input the split is
non-positive like the transaction. -/
theorem fixed_part_sign_coercion_witness : fixedAmt (-12000) 5000 ≤ 0 :=
  (fixed_part_sign_coercion (-12000) 5000).2.2.1 (by decide)

end RentLedger
